import Mathlib

/-!
Verification of the feature-extraction and model-selection pipeline in
`src/code/src/twitter.py` (bag-of-words sentiment classification homework).

Strings are modelled as `List Char`; a corpus file is a `List (List Char)`
of its lines.  Python `dict` (insertion ordered) is modelled as an
association list; numeric scores are `ℚ`; numpy float matrices of 0/1
entries are `List (List Int)`.  Fallible operations (dict lookup that can
raise `KeyError`, numpy fancy indexing that can raise `IndexError`) return
`Option`.
-/

set_option autoImplicit false

namespace Twitter

/-- The space character, inserted by `str.replace(c, ' ' + c + ' ')`. -/
def sp : Char := Char.ofNat 32

/-- The ASCII whitespace characters on which Python `str.split()` (with no
argument) splits: space, tab, newline, carriage return, vertical tab,
form feed. -/
def pySpace : List Char :=
  [Char.ofNat 32, Char.ofNat 9, Char.ofNat 10, Char.ofNat 13,
   Char.ofNat 11, Char.ofNat 12]

/-- Whether a character is Python `str.split()` whitespace. -/
def isPySpace (c : Char) : Bool := decide (c ∈ pySpace)

/-- Code points of Python `string.punctuation`:
the ASCII printable characters that are neither alphanumeric nor space,
in ascending code order (which is the iteration order of the Python
string constant). -/
def punctCodes : List Nat :=
  List.range' 33 15 ++ List.range' 58 7 ++ List.range' 91 6 ++ List.range' 123 4

/-- Python `string.punctuation` as a list of characters. -/
def punctuation : List Char := punctCodes.map Char.ofNat

/-- `input_string.replace(c, ' ' + c + ' ')`: every occurrence of `c` is
surrounded by spaces. -/
def replaceChar (c : Char) (l : List Char) : List Char :=
  l.flatMap fun x => if x = c then [sp, c, sp] else [x]

/-- Python `str.lower()` restricted to its ASCII action: `A`–`Z` map to
`a`–`z`, everything else is unchanged. -/
def pyLower (c : Char) : Char :=
  if 65 ≤ c.toNat ∧ c.toNat ≤ 90 then Char.ofNat (c.toNat + 32) else c

/-- One right-fold step of Python `str.split()`: a whitespace character
closes the current fragment, a non-whitespace character is prepended to
it. -/
def splitStep (c : Char) (acc : List (List Char)) : List (List Char) :=
  if isPySpace c then [] :: acc
  else
    match acc with
    | [] => [[c]]
    | t :: ts => (c :: t) :: ts

/-- Accumulator pass of Python `str.split()`: split at whitespace keeping
empty fragments (they are filtered away in `pySplit`). -/
def pySplitAux (l : List Char) : List (List Char) :=
  l.foldr splitStep []

/-- Python `str.split()` with no argument: maximal runs of non-whitespace
characters, in order. -/
def pySplit (l : List Char) : List (List Char) :=
  (pySplitAux l).filter (fun t => ¬ t.isEmpty)

/-- `extract_words` from twitter.py: surround every punctuation character
with spaces (iterating over `string.punctuation` in order), lowercase,
then split on whitespace. -/
def extract_words (s : List Char) : List (List Char) :=
  pySplit ((punctuation.foldl (fun acc c => replaceChar c acc) s).map pyLower)

/-! ## Vocabulary builder (`extract_dictionary`) -/

/-- A Python `dict` mapping tokens to integer indices, modelled as an
insertion-ordered association list (Python dicts preserve insertion
order). -/
abbrev Dict := List (List Char × Int)

/-- `word in word_list` membership test. -/
def dictContains (d : Dict) (w : List Char) : Bool :=
  d.any fun p => p.1 = w

/-- `word_list[word]`: `some` index, or `none` when the key is absent
(Python raises `KeyError`). -/
def dictLookup (d : Dict) (w : List Char) : Option Int :=
  (d.find? fun p => p.1 = w).map Prod.snd

/-- One step of the `extract_dictionary` inner loop:
`if word not in word_list: word_list[word] = len(word_list)-1`. -/
def insertWord (d : Dict) (w : List Char) : Dict :=
  if dictContains d w then d else d ++ [(w, (d.length : Int) - 1)]

/-- `extract_dictionary` from twitter.py: fold over the lines of the file,
tokenizing each and inserting each token not yet present with value
`len(word_list) - 1`. -/
def extract_dictionary (lines : List (List Char)) : Dict :=
  lines.foldl (fun wl line => (extract_words line).foldl insertWord wl) []

/-! ## Vectorizer (`extract_feature_vectors`) -/

/-- `row[j] = v` under numpy indexing semantics: an index in `[0, d)` is
used directly, an index in `[-d, 0)` wraps to `j + d`, anything else
raises `IndexError` (modelled as `none`). -/
def setEntry (row : List Int) (j : Int) (v : Int) : Option (List Int) :=
  if 0 ≤ j ∧ j < (row.length : Int) then some (row.set j.toNat v)
  else if -(row.length : Int) ≤ j ∧ j < 0 then
    some (row.set (j + row.length).toNat v)
  else none

/-- The inner loop of `extract_feature_vectors` for one line: for each
word, `feature_matrix[i, word_list[word]] = 1`; a missing key or an
out-of-range index aborts the whole call (Python exception). -/
def fillRow (word_list : Dict) : List Int → List (List Char) → Option (List Int)
  | row, [] => some row
  | row, w :: ws =>
    (dictLookup word_list w).bind fun j =>
      (setEntry row j 1).bind fun row2 => fillRow word_list row2 ws

/-- `extract_feature_vectors` from twitter.py: a zero matrix with one row
per line of the file (blank lines included) and `len(word_list)` columns;
each row has the entries of its line's words set to 1.  The Python code
iterates over `set(extract_words(line))`; since every iteration writes the
constant 1 and failure (missing key / bad index) depends only on which
words occur, iterating the word list directly is observationally equal. -/
def extract_feature_vectors (lines : List (List Char)) (word_list : Dict) :
    Option (List (List Int)) :=
  lines.mapM fun line =>
    fillRow word_list (List.replicate word_list.length 0) (extract_words line)

/-! ## Label file reader (`read_vector_file`) -/

/-- A line a numeric reader treats as blank: empty or whitespace only. -/
def isBlank (l : List Char) : Bool := l.all isPySpace

/-- `read_vector_file` from twitter.py.  Its body is `np.genfromtxt(fname)`,
an external library call modelled here per its documented behaviour (and
the docstring of `read_vector_file`): blank lines are skipped, every
non-blank line contributes one entry, so the result has one entry per
non-blank line.  Only the entry count matters for the claims, so the
entries are modelled as the non-blank lines themselves. -/
def read_vector_file (lines : List (List Char)) : List (List Char) :=
  lines.filter fun l => ¬ isBlank l

/-! ## Metric evaluator (`performance`) -/

/-- `np.sign` on one entry. -/
def npSign (x : ℚ) : ℚ := if 0 < x then 1 else if x < 0 then -1 else 0

/-- The binarization prologue of `performance`:
`y_label = np.sign(y_pred); y_label[y_label == 0] = 1`. -/
def binarize (y_pred : List ℚ) : List ℚ :=
  (y_pred.map npSign).map fun v => if v = 0 then 1 else v

/-- The external `sklearn.metrics` collaborator: the three scoring
functions `performance` can delegate to.  They are opaque parameters of
the evaluator; `performance` only chooses which one to call and on which
arguments. -/
structure Metrics where
  accuracy_score : List ℚ → List ℚ → ℚ
  f1_score : List ℚ → List ℚ → ℚ
  roc_auc_score : List ℚ → List ℚ → ℚ

/-- `performance` from twitter.py: binarize the continuous predictions
(`0` maps to `+1`), then dispatch on the metric name, returning `0` for
any unrecognized name. -/
def performance (m : Metrics) (y_true y_pred : List ℚ) (metric : String) : ℚ :=
  let y_label := binarize y_pred
  if metric = "accuracy" then m.accuracy_score y_true y_label
  else if metric = "f1_score" then m.f1_score y_true y_label
  else if metric = "auroc" then m.roc_auc_score y_true y_label
  else 0

/-! ## Cross-validator (`cv_performance`) -/

/-- One fold of a cross-validation run, as `cv_performance` observes it:
the held-out true labels together with the continuous decision scores of
the classifier fitted on the remaining folds (`clf.fit` and
`clf.decision_function` are the external SVM collaborator). -/
structure Fold where
  y_test : List ℚ
  y_pred : List ℚ

/-- `cv_performance` from twitter.py: sum the per-fold `performance`
scores and divide by `kf.get_n_splits()`; the splitter yields exactly
`get_n_splits()` folds, so the divisor is the number of folds. -/
def cv_performance (m : Metrics) (folds : List Fold) (metric : String) : ℚ :=
  (folds.map fun f => performance m f.y_test f.y_pred metric).sum / folds.length

/-! ## Hyperparameter selector (`select_param_linear`) -/

/-- `C_range = 10.0 ** np.arange(-3, 3)`: the fixed candidate grid in
ascending order. -/
def C_range : List ℚ := [1/1000, 1/100, 1/10, 1, 10, 100]

/-- The loop state of `select_param_linear`: `best_c = None` and
`best_perf = float('-inf')` (modelled as `⊥ : WithBot ℚ`). -/
def selectStep (score : ℚ → ℚ) (st : Option ℚ × WithBot ℚ) (c : ℚ) :
    Option ℚ × WithBot ℚ :=
  if st.2 < (score c : WithBot ℚ) then (some c, (score c : WithBot ℚ)) else st

/-- `select_param_linear` from twitter.py, parameterized by the
cross-validation score of each candidate (`score c` stands for
`cv_performance(SVC(kernel='linear', C=c), X, y, kf, metric)`): scan
`C_range` in order keeping the first candidate whose score strictly
exceeds the best so far. -/
def select_param_linear (score : ℚ → ℚ) : Option ℚ :=
  (C_range.foldl (selectStep score) (none, ⊥)).1

/-- A concrete stand-in for the sklearn metrics collaborator, used in
closed instantiations of the evaluator theorems. -/
def demoMetrics : Metrics :=
  { accuracy_score := fun _ _ => 1
    f1_score := fun _ _ => 2
    roc_auc_score := fun _ _ => 3 }

/-- The per-fold scores `cv_performance` accumulates. -/
def foldScores (m : Metrics) (folds : List Fold) (metric : String) : List ℚ :=
  folds.map fun f => performance m f.y_test f.y_pred metric

/-! ## Characterization of the vocabulary builder -/

/-- All tokens of the corpus in read order. -/
def tokenStream (lines : List (List Char)) : List (List Char) :=
  lines.flatMap extract_words

/-- Keep-first deduplication step. -/
def dedupStep (acc : List (List Char)) (w : List Char) : List (List Char) :=
  if w ∈ acc then acc else acc ++ [w]

/-- The distinct tokens of a token stream in first-occurrence order. -/
def pyDedup (ws : List (List Char)) : List (List Char) :=
  ws.foldl dedupStep []

/-- The dictionary assigning consecutive indices starting at `i` to a list
of tokens in order. -/
def dictFrom (i : Int) : List (List Char) → Dict
  | [] => []
  | w :: ws => (w, i) :: dictFrom (i + 1) ws

/-- The isolation relation used to analyse the tokenizer: with respect to
a set `S` of characters, two adjacent characters are acceptable when any
of them belonging to `S` forces the other to be the inserted space. -/
def goodFor (S : List Char) (x y : Char) : Prop :=
  (x ∈ S → y = sp) ∧ (y ∈ S → x = sp)

/-- Adjacent-pair closure of `goodFor` over a whole string, as an
inductive predicate (each consecutive pair of characters satisfies
`goodFor S`). -/
inductive GoodSeq (S : List Char) : List Char → Prop
  | nil : GoodSeq S []
  | single (x : Char) : GoodSeq S [x]
  | cons (x y : Char) (l : List Char) :
      goodFor S x y → GoodSeq S (y :: l) → GoodSeq S (x :: y :: l)

/-! ## Lemmas -/

lemma exists_min_of_ne_nil (l : List ℚ) (h : l ≠ []) :
    ∃ lo ∈ l, ∀ x ∈ l, lo ≤ x := by
  induction l with
  | nil => exact absurd rfl h
  | cons a l ih =>
    rcases eq_or_ne l [] with rfl | hl
    · exact ⟨a, List.mem_singleton_self a, by simp⟩
    · obtain ⟨lo, hmem, hlo⟩ := ih hl
      refine ⟨min a lo, ?_, ?_⟩
      · rcases min_choice a lo with h | h <;> rw [h]
        · exact List.mem_cons_self a l
        · exact List.mem_cons_of_mem a hmem
      · intro x hx
        rcases List.mem_cons.mp hx with rfl | hx
        · exact min_le_left _ _
        · exact le_trans (min_le_right _ _) (hlo x hx)

lemma exists_max_of_ne_nil (l : List ℚ) (h : l ≠ []) :
    ∃ hi ∈ l, ∀ x ∈ l, x ≤ hi := by
  induction l with
  | nil => exact absurd rfl h
  | cons a l ih =>
    rcases eq_or_ne l [] with rfl | hl
    · exact ⟨a, List.mem_singleton_self a, by simp⟩
    · obtain ⟨hi, hmem, hhi⟩ := ih hl
      refine ⟨max a hi, ?_, ?_⟩
      · rcases max_choice a hi with h | h <;> rw [h]
        · exact List.mem_cons_self a l
        · exact List.mem_cons_of_mem a hmem
      · intro x hx
        rcases List.mem_cons.mp hx with rfl | hx
        · exact le_max_left _ _
        · exact le_trans (hhi x hx) (le_max_right _ _)

lemma le_sum_div_length (l : List ℚ) (lo : ℚ) (h : ∀ x ∈ l, lo ≤ x)
    (hne : l ≠ []) : lo ≤ l.sum / l.length := by
  have hpos : (0 : ℚ) < l.length := by
    exact_mod_cast List.length_pos.mpr hne
  rw [le_div_iff₀ hpos]
  have := List.card_nsmul_le_sum l lo h
  rwa [nsmul_eq_mul, mul_comm] at this

lemma sum_div_length_le (l : List ℚ) (hi : ℚ) (h : ∀ x ∈ l, x ≤ hi)
    (hne : l ≠ []) : l.sum / l.length ≤ hi := by
  have hpos : (0 : ℚ) < l.length := by
    exact_mod_cast List.length_pos.mpr hne
  rw [div_le_iff₀ hpos]
  have := List.sum_le_card_nsmul l hi h
  rwa [nsmul_eq_mul, mul_comm] at this

/-- C3: `performance` binarizes the continuous scores — `sign`, with a
score of exactly 0 mapping to `+1` — and hands the binarized labels, not
the raw scores, to the named scoring function for all three metrics,
including `auroc`. -/
theorem performance_uses_binarized_labels (m : Metrics) (y_true y_pred : List ℚ) :
    performance m y_true y_pred "accuracy" =
      m.accuracy_score y_true (binarize y_pred) ∧
    performance m y_true y_pred "f1_score" =
      m.f1_score y_true (binarize y_pred) ∧
    performance m y_true y_pred "auroc" =
      m.roc_auc_score y_true (binarize y_pred) ∧
    binarize y_pred = y_pred.map fun x => if 0 ≤ x then 1 else -1 := by
  refine ⟨by simp [performance], by simp [performance], by simp [performance], ?_⟩
  unfold binarize
  rw [List.map_map]
  refine List.map_congr_left ?_
  intro x _
  simp only [Function.comp_apply, npSign]
  rcases lt_trichotomy x 0 with h | rfl | h
  · rw [if_neg (not_lt.mpr h.le), if_pos h, if_neg (by norm_num),
      if_neg (not_le.mpr h)]
  · norm_num
  · rw [if_pos h, if_neg (by norm_num), if_pos h.le]

/-- C8: for any metric name other than `accuracy`, `f1_score`, `auroc`,
`performance` falls through every branch and returns the sentinel 0. -/
theorem performance_unknown_metric (m : Metrics) (y_true y_pred : List ℚ)
    (metric : String)
    (h : metric ∉ (["accuracy", "f1_score", "auroc"] : List String)) :
    performance m y_true y_pred metric = 0 := by
  simp only [List.mem_cons, List.not_mem_nil, or_false, not_or] at h
  obtain ⟨h1, h2, h3⟩ := h
  simp [performance, h1, h2, h3]

/-- Closed instance of `performance_unknown_metric`: the docstring name
`f1-score` (with a hyphen) is not a recognized metric and yields 0. -/
theorem performance_unknown_metric_witness :
    performance demoMetrics [1] [-2] "f1-score" = 0 :=
  performance_unknown_metric demoMetrics [1] [-2] "f1-score" (by decide)

/-- C5: `cv_performance` returns the arithmetic mean of the per-fold
scores, and, for a non-empty list of folds, that mean lies between the
minimum and the maximum per-fold score. -/
theorem cv_performance_mean_within_bounds (m : Metrics) (folds : List Fold)
    (metric : String) (hne : folds ≠ []) :
    cv_performance m folds metric =
      (foldScores m folds metric).sum / (foldScores m folds metric).length ∧
    ∃ lo ∈ foldScores m folds metric, ∃ hi ∈ foldScores m folds metric,
      (∀ s ∈ foldScores m folds metric, lo ≤ s ∧ s ≤ hi) ∧
      lo ≤ cv_performance m folds metric ∧ cv_performance m folds metric ≤ hi := by
  have hsne : foldScores m folds metric ≠ [] := by
    simp [foldScores, hne]
  have hmean : cv_performance m folds metric =
      (foldScores m folds metric).sum / (foldScores m folds metric).length := by
    simp [cv_performance, foldScores]
  obtain ⟨lo, hlomem, hlo⟩ := exists_min_of_ne_nil _ hsne
  obtain ⟨hi, hhimem, hhi⟩ := exists_max_of_ne_nil _ hsne
  refine ⟨hmean, lo, hlomem, hi, hhimem, fun s hs => ⟨hlo s hs, hhi s hs⟩, ?_, ?_⟩
  · rw [hmean]
    exact le_sum_div_length _ lo hlo hsne
  · rw [hmean]
    exact sum_div_length_le _ hi hhi hsne

/-- Closed instance of `cv_performance_mean_within_bounds` at a concrete
two-fold run. -/
theorem cv_performance_mean_within_bounds_witness :
    cv_performance demoMetrics [⟨[1], [1]⟩, ⟨[1], [-1]⟩] "accuracy" =
      (foldScores demoMetrics [⟨[1], [1]⟩, ⟨[1], [-1]⟩] "accuracy").sum /
        (foldScores demoMetrics [⟨[1], [1]⟩, ⟨[1], [-1]⟩] "accuracy").length ∧
    ∃ lo ∈ foldScores demoMetrics [⟨[1], [1]⟩, ⟨[1], [-1]⟩] "accuracy",
      ∃ hi ∈ foldScores demoMetrics [⟨[1], [1]⟩, ⟨[1], [-1]⟩] "accuracy",
      (∀ s ∈ foldScores demoMetrics [⟨[1], [1]⟩, ⟨[1], [-1]⟩] "accuracy",
        lo ≤ s ∧ s ≤ hi) ∧
      lo ≤ cv_performance demoMetrics [⟨[1], [1]⟩, ⟨[1], [-1]⟩] "accuracy" ∧
      cv_performance demoMetrics [⟨[1], [1]⟩, ⟨[1], [-1]⟩] "accuracy" ≤ hi :=
  cv_performance_mean_within_bounds demoMetrics [⟨[1], [1]⟩, ⟨[1], [-1]⟩]
    "accuracy" (by simp)

lemma foldl_selectStep_spec (score : ℚ → ℚ) :
    ∀ (rest : List ℚ) (bc : ℚ),
      ∃ c, rest.foldl (selectStep score) (some bc, (score bc : WithBot ℚ)) =
          (some c, (score c : WithBot ℚ)) ∧
        score bc ≤ score c ∧ (∀ x ∈ rest, score x ≤ score c) ∧
        (c = bc ∨ ∃ l1 l2, rest = l1 ++ c :: l2 ∧ score bc < score c ∧
          ∀ x ∈ l1, score x < score c)
  | [], bc => ⟨bc, rfl, le_refl _, by simp, Or.inl rfl⟩
  | y :: rest, bc => by
    by_cases hy : score bc < score y
    · have hstep : selectStep score (some bc, (score bc : WithBot ℚ)) y =
          (some y, (score y : WithBot ℚ)) := by
        simp only [selectStep]
        rw [if_pos (by exact_mod_cast hy)]
      obtain ⟨c, hfold, hle, hall, hdec⟩ := foldl_selectStep_spec score rest y
      refine ⟨c, by rw [List.foldl_cons, hstep]; exact hfold, hy.le.trans hle, ?_, ?_⟩
      · intro x hx
        rcases List.mem_cons.mp hx with rfl | hx
        · exact hle
        · exact hall x hx
      · rcases hdec with rfl | ⟨l1, l2, hsplit, hlt, hstrict⟩
        · exact Or.inr ⟨[], rest, rfl, hy, by simp⟩
        · refine Or.inr ⟨y :: l1, l2, by rw [hsplit]; rfl, hy.trans hlt, ?_⟩
          intro x hx
          rcases List.mem_cons.mp hx with rfl | hx
          · exact hlt
          · exact hstrict x hx
    · have hstep : selectStep score (some bc, (score bc : WithBot ℚ)) y =
          (some bc, (score bc : WithBot ℚ)) := by
        simp only [selectStep]
        rw [if_neg (by exact_mod_cast hy)]
      obtain ⟨c, hfold, hle, hall, hdec⟩ := foldl_selectStep_spec score rest bc
      refine ⟨c, by rw [List.foldl_cons, hstep]; exact hfold, hle, ?_, ?_⟩
      · intro x hx
        rcases List.mem_cons.mp hx with rfl | hx
        · exact le_trans (not_lt.mp hy) hle
        · exact hall x hx
      · rcases hdec with rfl | ⟨l1, l2, hsplit, hlt, hstrict⟩
        · exact Or.inl rfl
        · refine Or.inr ⟨y :: l1, l2, by rw [hsplit]; rfl, hlt, ?_⟩
          intro x hx
          rcases List.mem_cons.mp hx with rfl | hx
          · exact lt_of_le_of_lt (not_lt.mp hy) hlt
          · exact hstrict x hx

/-- C4: `select_param_linear` scans the fixed grid `C_range` in ascending
order and returns a grid element achieving the maximum score such that
every strictly earlier grid element scores strictly lower — so on ties the
earlier candidate wins. -/
theorem select_param_linear_first_max (score : ℚ → ℚ) :
    ∃ c l1 l2, select_param_linear score = some c ∧ C_range = l1 ++ c :: l2 ∧
      (∀ x ∈ C_range, score x ≤ score c) ∧ ∀ x ∈ l1, score x < score c := by
  have hstep0 : selectStep score (none, ⊥) (1/1000) =
      (some (1/1000), (score (1/1000) : WithBot ℚ)) := by
    simp only [selectStep]
    rw [if_pos (WithBot.bot_lt_coe _)]
  obtain ⟨c, hfold, hle, hall, hdec⟩ :=
    foldl_selectStep_spec score [1/100, 1/10, 1, 10, 100] (1/1000)
  have hsel : select_param_linear score = some c := by
    unfold select_param_linear C_range
    rw [List.foldl_cons, hstep0, hfold]
  rcases hdec with rfl | ⟨l1, l2, hsplit, hlt, hstrict⟩
  · refine ⟨1/1000, [], [1/100, 1/10, 1, 10, 100], hsel, rfl, ?_, by simp⟩
    intro x hx
    rcases List.mem_cons.mp hx with rfl | hx
    · exact le_refl _
    · exact hall x hx
  · refine ⟨c, (1/1000) :: l1, l2, hsel,
      by rw [C_range, hsplit]; exact (List.cons_append _ _ _).symm, ?_, ?_⟩
    · intro x hx
      rcases List.mem_cons.mp hx with rfl | hx
      · exact hle
      · exact hall x (by rw [hsplit] at hx ⊢; exact hx)
    · intro x hx
      rcases List.mem_cons.mp hx with rfl | hx
      · exact hlt
      · exact hstrict x hx

lemma dictFrom_append_singleton (w : List Char) (l : List (List Char)) :
    ∀ i : Int, dictFrom i (l ++ [w]) = dictFrom i l ++ [(w, i + l.length)] := by
  induction l with
  | nil => intro i; simp [dictFrom]
  | cons x l ih =>
    intro i
    have h : i + 1 + (l.length : Int) = i + ((l.length : Int) + 1) := by ring
    simp only [List.cons_append, dictFrom, ih (i + 1), List.length_cons,
      Nat.cast_add, Nat.cast_one, h, List.append_eq]

lemma dictFrom_length : ∀ (l : List (List Char)) (i : Int),
    (dictFrom i l).length = l.length
  | [], _ => rfl
  | _ :: l, i => by simp [dictFrom, dictFrom_length l (i + 1)]

lemma dictContains_dictFrom (l : List (List Char)) :
    ∀ (i : Int) (w : List Char),
      dictContains (dictFrom i l) w = true ↔ w ∈ l := by
  induction l with
  | nil => intro i w; simp [dictFrom, dictContains]
  | cons x l ih =>
    intro i w
    have ihw := ih (i + 1) w
    simp only [dictContains, dictFrom, List.any_cons, Bool.or_eq_true,
      decide_eq_true_eq, List.mem_cons] at ihw ⊢
    rw [ihw]
    exact or_congr eq_comm Iff.rfl

lemma foldl_insertWord_eq_dictFrom :
    ∀ (ws : List (List Char)) (acc : List (List Char)),
      ws.foldl insertWord (dictFrom (-1) acc) =
        dictFrom (-1) (ws.foldl dedupStep acc)
  | [], acc => rfl
  | w :: ws, acc => by
    by_cases hw : w ∈ acc
    · have h1 : insertWord (dictFrom (-1) acc) w = dictFrom (-1) acc := by
        unfold insertWord
        rw [if_pos ((dictContains_dictFrom acc (-1) w).mpr hw)]
      have h2 : dedupStep acc w = acc := by
        unfold dedupStep
        rw [if_pos hw]
      rw [List.foldl_cons, List.foldl_cons, h1, h2,
        foldl_insertWord_eq_dictFrom ws acc]
    · have h1 : insertWord (dictFrom (-1) acc) w =
          dictFrom (-1) (acc ++ [w]) := by
        unfold insertWord
        rw [if_neg (by rw [dictContains_dictFrom acc (-1) w]; exact hw),
          dictFrom_append_singleton, dictFrom_length,
          show ((acc.length : Int) - 1 = -1 + (acc.length : Int)) by ring]
      have h2 : dedupStep acc w = acc ++ [w] := by
        unfold dedupStep
        rw [if_neg hw]
      rw [List.foldl_cons, List.foldl_cons, h1, h2,
        foldl_insertWord_eq_dictFrom ws (acc ++ [w])]

lemma extract_dictionary_eq_foldl_tokens (lines : List (List Char)) :
    extract_dictionary lines = (tokenStream lines).foldl insertWord [] := by
  suffices h : ∀ (ls : List (List Char)) (d : Dict),
      ls.foldl (fun wl line => (extract_words line).foldl insertWord wl) d =
        (ls.flatMap extract_words).foldl insertWord d by
    exact h lines []
  intro ls
  induction ls with
  | nil => intro d; simp
  | cons l ls ih =>
    intro d
    rw [List.foldl_cons, List.flatMap_cons, List.foldl_append, ih]

/-- C9: the vocabulary builder is deterministic — it is a pure function of
the corpus, so two runs on the same corpus agree — and it assigns indices
in first-occurrence order: the dictionary equals the keep-first
deduplication of the token stream paired with consecutive indices starting
at the value given to the first token. -/
theorem extract_dictionary_deterministic_first_occurrence
    (lines : List (List Char)) :
    extract_dictionary lines = extract_dictionary lines ∧
    extract_dictionary lines = dictFrom (-1) (pyDedup (tokenStream lines)) := by
  refine ⟨rfl, ?_⟩
  rw [extract_dictionary_eq_foldl_tokens]
  have h := foldl_insertWord_eq_dictFrom (tokenStream lines) []
  simpa [pyDedup, dictFrom] using h

/-- C1 failing input: on the one-line corpus `"a"`, `extract_dictionary`
assigns the first token the index `len(word_list) - 1 = -1`, which is not
a non-negative offset into a feature matrix with one column. -/
theorem extract_dictionary_assigns_negative_index :
    extract_dictionary [['a']] = [(['a'], -1)] ∧
    dictLookup (extract_dictionary [['a']]) ['a'] = some (-1) ∧
    ¬ (0 ≤ (-1 : Int)) := by decide

/-! ## Tokenizer lemmas -/

lemma isPySpace_sp : isPySpace sp = true := by decide

lemma sp_not_mem_punctuation : sp ∉ punctuation := by decide

lemma punctuation_not_space : ∀ c ∈ punctuation, isPySpace c = false := by decide

lemma punctuation_ne_sp : ∀ c ∈ punctuation, c ≠ sp := by decide

lemma pyLower_sp : pyLower sp = sp := by decide

lemma pyLower_fixes_punctuation : ∀ c ∈ punctuation, pyLower c = c := by decide

lemma pySpace_fixed_by_pyLower : ∀ c ∈ pySpace, pyLower c = c := by decide

lemma ofNat_lowercase_not_punctuation :
    ∀ n ∈ List.range' 97 26, Char.ofNat n ∉ punctuation := by decide

lemma punctuation_not_upper :
    ∀ c ∈ punctuation, ¬ (65 ≤ c.toNat ∧ c.toNat ≤ 90) := by decide

lemma char_toNat_ofNat (n : Nat) (h : n < 55296) : (Char.ofNat n).toNat = n := by
  simp [Char.ofNat, Nat.isValidChar, h, Char.toNat, Char.ofNatAux, UInt32.toNat]

lemma pyLower_not_upper (c : Char) :
    ¬ (65 ≤ (pyLower c).toNat ∧ (pyLower c).toNat ≤ 90) := by
  unfold pyLower
  by_cases h : 65 ≤ c.toNat ∧ c.toNat ≤ 90
  · rw [if_pos h]
    have hval : c.toNat + 32 < 55296 := by omega
    rw [char_toNat_ofNat _ hval]
    omega
  · rw [if_neg h]
    exact h

lemma pyLower_mem_punctuation_iff (c : Char) :
    pyLower c ∈ punctuation ↔ c ∈ punctuation := by
  unfold pyLower
  by_cases h : 65 ≤ c.toNat ∧ c.toNat ≤ 90
  · rw [if_pos h]
    constructor
    · intro hmem
      exfalso
      refine ofNat_lowercase_not_punctuation (c.toNat + 32) ?_ hmem
      rw [List.mem_range'_1]
      omega
    · intro hmem
      exact absurd h (punctuation_not_upper c hmem)
  · rw [if_neg h]

lemma mem_replaceChar_of_mem (c x : Char) (l : List Char) (h : x ∈ l) :
    x ∈ replaceChar c l := by
  rw [replaceChar, List.mem_flatMap]
  refine ⟨x, h, ?_⟩
  by_cases hx : x = c
  · rw [if_pos hx]
    subst hx
    simp
  · rw [if_neg hx]
    simp

lemma mem_of_mem_replaceChar (c x : Char) (l : List Char)
    (h : x ∈ replaceChar c l) : x ∈ l ∨ x = sp := by
  rw [replaceChar, List.mem_flatMap] at h
  obtain ⟨a, ha, hx⟩ := h
  by_cases hac : a = c
  · rw [if_pos hac] at hx
    simp only [List.mem_cons, List.not_mem_nil, or_false] at hx
    rcases hx with h1 | h2 | h3
    · exact Or.inr h1
    · exact Or.inl ((h2.trans hac.symm) ▸ ha)
    · exact Or.inr h3
  · rw [if_neg hac] at hx
    simp only [List.mem_singleton] at hx
    exact Or.inl (hx ▸ ha)

lemma mem_foldl_replace (ps : List Char) :
    ∀ (l : List Char) (x : Char), x ∈ l →
      x ∈ ps.foldl (fun acc c => replaceChar c acc) l := by
  induction ps with
  | nil => intro l x h; exact h
  | cons c ps ih =>
    intro l x h
    exact ih (replaceChar c l) x (mem_replaceChar_of_mem c x l h)

lemma replaceChar_head (c : Char) (l : List Char) :
    (replaceChar c l).head? = l.head?.map fun x => if x = c then sp else x := by
  cases l with
  | nil => rfl
  | cons x l =>
    unfold replaceChar
    rw [List.flatMap_cons]
    by_cases hx : x = c
    · rw [if_pos hx]
      simp [hx]
    · rw [if_neg hx]
      simp [hx]

lemma goodSeq_empty : ∀ l : List Char, GoodSeq ([] : List Char) l
  | [] => GoodSeq.nil
  | [x] => GoodSeq.single x
  | x :: y :: l =>
    GoodSeq.cons x y l
      ⟨fun h => absurd h (List.not_mem_nil x),
       fun h => absurd h (List.not_mem_nil y)⟩
      (goodSeq_empty (y :: l))

lemma goodFor_congr (S S' : List Char) (hSS : ∀ a, a ∈ S ↔ a ∈ S')
    (x y : Char) (h : goodFor S x y) : goodFor S' x y :=
  ⟨fun hx => h.1 ((hSS x).mpr hx), fun hy => h.2 ((hSS y).mpr hy)⟩

lemma goodSeq_tail (S : List Char) (x : Char) (l : List Char)
    (h : GoodSeq S (x :: l)) : GoodSeq S l := by
  cases h with
  | single _ => exact GoodSeq.nil
  | cons _ _ _ _ htail => exact htail

lemma goodSeq_head (S : List Char) (x : Char) (l : List Char)
    (h : GoodSeq S (x :: l)) : ∀ y ∈ l.head?, goodFor S x y := by
  cases h with
  | single _ =>
    intro y hy
    simp at hy
  | cons _ y2 _ hxy _ =>
    intro y hy
    simp only [List.head?_cons, Option.mem_def, Option.some_inj] at hy
    exact hy ▸ hxy

lemma goodSeq_mono (S S' : List Char) (hSS : ∀ a, a ∈ S ↔ a ∈ S') :
    ∀ l : List Char, GoodSeq S l → GoodSeq S' l := by
  intro l h
  induction h with
  | nil => exact GoodSeq.nil
  | single x => exact GoodSeq.single x
  | cons x y l hxy _ ih =>
    exact GoodSeq.cons x y l (goodFor_congr S S' hSS x y hxy) ih

lemma goodSeq_append (S : List Char) :
    ∀ (l1 l2 : List Char), GoodSeq S l1 → GoodSeq S l2 →
      (∀ a ∈ l1.getLast?, ∀ b ∈ l2.head?, goodFor S a b) →
      GoodSeq S (l1 ++ l2)
  | [], l2, _, h2, _ => by simpa using h2
  | [x], l2, h1, h2, hb => by
    cases l2 with
    | nil => exact h1
    | cons y l2' =>
      exact GoodSeq.cons x y l2' (hb x (by simp) y (by simp)) h2
  | x :: y :: l1, l2, h1, h2, hb => by
    have hxy : goodFor S x y := by
      cases h1 with
      | cons _ _ _ hxy _ => exact hxy
    have ih := goodSeq_append S (y :: l1) l2 (goodSeq_tail S x _ h1) h2 (by
      intro a ha b hbb
      refine hb a ?_ b hbb
      rwa [List.getLast?_cons_cons])
    exact GoodSeq.cons x y (l1 ++ l2) hxy ih

lemma goodSeq_replaceChar (S : List Char) (c : Char) (hc : c ≠ sp)
    (hS : sp ∉ S) :
    ∀ l : List Char, GoodSeq S l → GoodSeq (c :: S) (replaceChar c l) := by
  have hsp_not : sp ∉ c :: S := by
    simp only [List.mem_cons, not_or]
    exact ⟨fun h => hc h.symm, hS⟩
  intro l
  induction l with
  | nil =>
    intro _
    exact GoodSeq.nil
  | cons x l ih =>
    intro h
    have hrep : replaceChar c (x :: l) =
        (if x = c then [sp, c, sp] else [x]) ++ replaceChar c l := by
      unfold replaceChar
      rw [List.flatMap_cons]
    rw [hrep]
    refine goodSeq_append (c :: S) _ _ ?_ (ih (goodSeq_tail S x l h)) ?_
    · by_cases hxc : x = c
      · rw [if_pos hxc]
        exact GoodSeq.cons sp c [sp]
          ⟨fun hsp => absurd hsp hsp_not, fun _ => rfl⟩
          (GoodSeq.cons c sp []
            ⟨fun _ => rfl, fun hsp => absurd hsp hsp_not⟩
            (GoodSeq.single sp))
      · rw [if_neg hxc]
        exact GoodSeq.single x
    · intro a ha b hb
      rw [replaceChar_head] at hb
      cases l with
      | nil => simp at hb
      | cons z l' =>
        have hb' : (if z = c then sp else z) = b := by simpa using hb
        have hxz : goodFor S x z := goodSeq_head S x _ h z (by simp)
        by_cases hxc : x = c
        · rw [if_pos hxc] at ha
          have ha' : sp = a := by simpa using ha
          subst ha'
          exact ⟨fun hsp => absurd hsp hsp_not, fun _ => rfl⟩
        · rw [if_neg hxc] at ha
          have ha' : x = a := by simpa using ha
          subst ha'
          by_cases hzc : z = c
          · rw [if_pos hzc] at hb'
            subst hb'
            exact ⟨fun _ => rfl, fun hsp => absurd hsp hsp_not⟩
          · rw [if_neg hzc] at hb'
            subst hb'
            constructor
            · intro hmem
              rcases List.mem_cons.mp hmem with h1 | h2
              · exact absurd h1 hxc
              · exact hxz.1 h2
            · intro hmem
              rcases List.mem_cons.mp hmem with h1 | h2
              · exact absurd h1 hzc
              · exact hxz.2 h2

lemma goodSeq_foldl_replace (ps : List Char) :
    ∀ (S l : List Char), sp ∉ ps → sp ∉ S → GoodSeq S l →
      GoodSeq (ps.reverse ++ S)
        (ps.foldl (fun acc c => replaceChar c acc) l) := by
  induction ps with
  | nil =>
    intro S l _ _ h
    simpa using h
  | cons c ps ih =>
    intro S l hps hS h
    have hc : c ≠ sp := fun hcsp => hps (hcsp ▸ List.mem_cons_self c ps)
    have hps' : sp ∉ ps := fun hmem => hps (List.mem_cons_of_mem c hmem)
    have hS' : sp ∉ c :: S := by
      simp only [List.mem_cons, not_or]
      exact ⟨fun hh => hc hh.symm, hS⟩
    have ihh := ih (c :: S) (replaceChar c l) hps' hS'
      (goodSeq_replaceChar S c hc hS l h)
    rw [List.foldl_cons]
    refine goodSeq_mono _ _ ?_ _ ihh
    intro t
    simp only [List.mem_append, List.mem_reverse, List.mem_cons,
      List.reverse_cons]
    tauto

lemma goodSeq_map_pyLower (l : List Char) (h : GoodSeq punctuation l) :
    GoodSeq punctuation (l.map pyLower) := by
  induction h with
  | nil => exact GoodSeq.nil
  | single x => exact GoodSeq.single (pyLower x)
  | cons x y l hxy _ ih =>
    refine GoodSeq.cons (pyLower x) (pyLower y) (l.map pyLower) ?_ ih
    constructor
    · intro hmem
      rw [pyLower_mem_punctuation_iff] at hmem
      rw [hxy.1 hmem, pyLower_sp]
    · intro hmem
      rw [pyLower_mem_punctuation_iff] at hmem
      rw [hxy.2 hmem, pyLower_sp]

lemma goodSeq_replaced_lowered (s : List Char) :
    GoodSeq punctuation
      ((punctuation.foldl (fun acc c => replaceChar c acc) s).map pyLower) :=
  goodSeq_map_pyLower _
    (goodSeq_mono _ punctuation (by intro t; simp) _
      (goodSeq_foldl_replace punctuation [] s sp_not_mem_punctuation
        (List.not_mem_nil sp) (goodSeq_empty s)))

lemma splitStep_space (c : Char) (acc : List (List Char))
    (h : isPySpace c = true) : splitStep c acc = [] :: acc := by
  unfold splitStep
  rw [if_pos h]

lemma splitStep_nonspace_nil (c : Char) (h : isPySpace c = false) :
    splitStep c [] = [[c]] := by
  unfold splitStep
  rw [if_neg (by simp [h])]

lemma splitStep_nonspace_cons (c : Char) (t : List Char)
    (ts : List (List Char)) (h : isPySpace c = false) :
    splitStep c (t :: ts) = (c :: t) :: ts := by
  unfold splitStep
  rw [if_neg (by simp [h])]

lemma pySplitAux_cons (c : Char) (l : List Char) :
    pySplitAux (c :: l) = splitStep c (pySplitAux l) := rfl

lemma pySplitAux_flatten (l : List Char) :
    (pySplitAux l).flatten = l.filter fun c => ¬ isPySpace c := by
  induction l with
  | nil => rfl
  | cons c l ih =>
    rw [pySplitAux_cons, List.filter_cons]
    cases hsp : isPySpace c with
    | true =>
      rw [splitStep_space c _ hsp, List.flatten_cons, List.nil_append, ih,
        if_neg (by simp [hsp])]
    | false =>
      cases haux : pySplitAux l with
      | nil =>
        rw [splitStep_nonspace_nil c hsp, if_pos (by simp [hsp])]
        rw [haux] at ih
        simp only [List.flatten_nil] at ih
        rw [← ih]
        rfl
      | cons t ts =>
        rw [splitStep_nonspace_cons c t ts hsp, if_pos (by simp [hsp])]
        rw [haux, List.flatten_cons] at ih
        rw [List.flatten_cons, ← ih]
        rfl

lemma pySplitAux_head_eq (l : List Char) (t : List Char)
    (ts : List (List Char)) (x : Char) (haux : pySplitAux l = t :: ts)
    (hx : t.head? = some x) : l.head? = some x ∧ isPySpace x = false := by
  cases l with
  | nil => exact absurd haux (by simp [pySplitAux])
  | cons c l' =>
    rw [pySplitAux_cons] at haux
    cases hsp : isPySpace c with
    | true =>
      rw [splitStep_space c _ hsp] at haux
      obtain ⟨ht, -⟩ := List.cons.inj haux
      rw [← ht] at hx
      simp at hx
    | false =>
      cases haux2 : pySplitAux l' with
      | nil =>
        rw [haux2, splitStep_nonspace_nil c hsp] at haux
        obtain ⟨ht, -⟩ := List.cons.inj haux
        rw [← ht] at hx
        simp only [List.head?_cons, Option.some_inj] at hx
        subst hx
        exact ⟨rfl, hsp⟩
      | cons t2 ts2 =>
        rw [haux2, splitStep_nonspace_cons c t2 ts2 hsp] at haux
        obtain ⟨ht, -⟩ := List.cons.inj haux
        rw [← ht] at hx
        simp only [List.head?_cons, Option.some_inj] at hx
        subst hx
        exact ⟨rfl, hsp⟩

lemma tokens_isolated (P : List Char) :
    ∀ l : List Char, GoodSeq P l →
      ∀ t ∈ pySplitAux l, ∀ x ∈ t, x ∈ P → t = [x] := by
  intro l
  induction l with
  | nil =>
    intro _ t ht
    exact absurd ht (by simp [pySplitAux])
  | cons c l ih =>
    intro h t ht x hx hxP
    rw [pySplitAux_cons] at ht
    cases hsp : isPySpace c with
    | true =>
      rw [splitStep_space c _ hsp] at ht
      rcases List.mem_cons.mp ht with rfl | ht'
      · exact absurd hx (List.not_mem_nil x)
      · exact ih (goodSeq_tail P c l h) t ht' x hx hxP
    | false =>
      cases haux : pySplitAux l with
      | nil =>
        rw [haux, splitStep_nonspace_nil c hsp] at ht
        have ht' : t = [c] := by simpa using ht
        subst ht'
        have hx' : x = c := by simpa using hx
        subst hx'
        rfl
      | cons t' ts' =>
        rw [haux, splitStep_nonspace_cons c t' ts' hsp] at ht
        rcases List.mem_cons.mp ht with rfl | ht2
        · rcases List.mem_cons.mp hx with rfl | hx2
          · cases ht' : t' with
            | nil => rfl
            | cons z l2 =>
              exfalso
              have hhead : t'.head? = some z := by rw [ht']; rfl
              obtain ⟨hlh, hznot⟩ := pySplitAux_head_eq l t' ts' z haux hhead
              have hcz : goodFor P x z :=
                goodSeq_head P x l h z (by rw [hlh]; rfl)
              have hzsp : z = sp := hcz.1 hxP
              rw [hzsp, isPySpace_sp] at hznot
              exact Bool.true_eq_false ▸ hznot
          · exfalso
            have ht'' : t' = [x] :=
              ih (goodSeq_tail P c l h) t'
                (by rw [haux]; exact List.mem_cons_self t' ts') x hx2 hxP
            have hhead : t'.head? = some x := by rw [ht'']; rfl
            obtain ⟨hlh, hxnot⟩ := pySplitAux_head_eq l t' ts' x haux hhead
            have hcx : goodFor P c x :=
              goodSeq_head P c l h x (by rw [hlh]; rfl)
            have hcsp : c = sp := hcx.2 hxP
            rw [hcsp, isPySpace_sp] at hsp
            exact Bool.true_eq_false ▸ hsp
        · exact ih (goodSeq_tail P c l h) t
            (by rw [haux]; exact List.mem_cons_of_mem t' ht2) x hx hxP

lemma pySplit_all_space (l : List Char) (h : ∀ c ∈ l, isPySpace c = true) :
    pySplit l = [] := by
  induction l with
  | nil => rfl
  | cons c l ih =>
    unfold pySplit at ih ⊢
    rw [pySplitAux_cons, splitStep_space c _ (h c (List.mem_cons_self c l)),
      List.filter_cons, if_neg (by simp)]
    exact ih fun x hx => h x (List.mem_cons_of_mem c hx)

lemma replaceChar_of_not_mem (c : Char) (l : List Char) (h : c ∉ l) :
    replaceChar c l = l := by
  induction l with
  | nil => rfl
  | cons x l ih =>
    have hxc : ¬ x = c := fun hxc => h (hxc ▸ List.mem_cons_self x l)
    unfold replaceChar at ih ⊢
    rw [List.flatMap_cons, if_neg hxc,
      ih fun hmem => h (List.mem_cons_of_mem x hmem)]
    rfl

lemma foldl_replace_of_disjoint (ps : List Char) :
    ∀ l : List Char, (∀ p ∈ ps, p ∉ l) →
      ps.foldl (fun acc c => replaceChar c acc) l = l := by
  induction ps with
  | nil => intro l _; rfl
  | cons c ps ih =>
    intro l h
    rw [List.foldl_cons, replaceChar_of_not_mem c l (h c (List.mem_cons_self c ps))]
    exact ih l fun p hp => h p (List.mem_cons_of_mem c hp)

lemma map_pyLower_of_all_space (l : List Char)
    (h : ∀ c ∈ l, isPySpace c = true) : l.map pyLower = l := by
  induction l with
  | nil => rfl
  | cons c l ih =>
    rw [List.map_cons,
      pySpace_fixed_by_pyLower c
        (of_decide_eq_true (h c (List.mem_cons_self c l))),
      ih fun x hx => h x (List.mem_cons_of_mem c hx)]

lemma extract_words_blank (l : List Char) (h : isBlank l = true) :
    extract_words l = [] := by
  have hall : ∀ c ∈ l, isPySpace c = true := by
    intro c hc
    have := h
    unfold isBlank at this
    exact List.all_eq_true.mp this c hc
  have hdisj : ∀ p ∈ punctuation, p ∉ l := by
    intro p hp hmem
    have h1 := hall p hmem
    have h2 := punctuation_not_space p hp
    rw [h1] at h2
    exact Bool.true_eq_false ▸ h2
  unfold extract_words
  rw [foldl_replace_of_disjoint punctuation l hdisj,
    map_pyLower_of_all_space l hall, pySplit_all_space l hall]

lemma mem_token_mem_filtered (l : List Char) (t : List Char) (x : Char)
    (ht : t ∈ pySplit l) (hx : x ∈ t) : x ∈ l ∧ isPySpace x = false := by
  have ht' : t ∈ pySplitAux l := (List.mem_filter.mp ht).1
  have hxf : x ∈ (pySplitAux l).flatten := List.mem_flatten.mpr ⟨t, ht', hx⟩
  rw [pySplitAux_flatten] at hxf
  have hm := List.mem_filter.mp hxf
  exact ⟨hm.1, by simpa using hm.2⟩

lemma token_of_mem_filtered (l : List Char) (x : Char) (hx : x ∈ l)
    (hnsp : isPySpace x = false) : ∃ t ∈ pySplit l, x ∈ t := by
  have hxf : x ∈ (pySplitAux l).flatten := by
    rw [pySplitAux_flatten]
    exact List.mem_filter.mpr ⟨hx, by simp [hnsp]⟩
  obtain ⟨t, ht, hxt⟩ := List.mem_flatten.mp hxf
  refine ⟨t, List.mem_filter.mpr ⟨ht, ?_⟩, hxt⟩
  cases t with
  | nil => exact absurd hxt (List.not_mem_nil x)
  | cons a t' => simp

/-- C6: `extract_words` separates every punctuation character into its own
token (a token containing a punctuation character is exactly that single
character), produces only lowercase tokens free of whitespace, turns a
punctuation character occurring anywhere in the input into a singleton
token of the output, and maps blank (empty or whitespace-only) input to
the empty token sequence. -/
theorem extract_words_tokenizer_spec (s : List Char) :
    (∀ t ∈ extract_words s, ∀ x ∈ t,
        (x ∈ punctuation → t = [x]) ∧ isPySpace x = false ∧
          ¬ (65 ≤ x.toNat ∧ x.toNat ≤ 90)) ∧
    (∀ c ∈ punctuation, c ∈ s → [c] ∈ extract_words s) ∧
    (isBlank s = true → extract_words s = []) := by
  refine ⟨?_, ?_, extract_words_blank s⟩
  · intro t ht x hx
    obtain ⟨hxF, hxnsp⟩ := mem_token_mem_filtered _ t x ht hx
    refine ⟨?_, hxnsp, ?_⟩
    · intro hxP
      exact tokens_isolated punctuation _ (goodSeq_replaced_lowered s) t
        (List.mem_filter.mp ht).1 x hx hxP
    · obtain ⟨y, -, rfl⟩ := List.mem_map.mp hxF
      exact pyLower_not_upper y
  · intro c hcP hcs
    have h1 : c ∈ punctuation.foldl (fun acc c => replaceChar c acc) s :=
      mem_foldl_replace punctuation s c hcs
    have h2 := List.mem_map.mpr ⟨c, h1, pyLower_fixes_punctuation c hcP⟩
    obtain ⟨t, htF, hct⟩ :=
      token_of_mem_filtered _ c h2 (punctuation_not_space c hcP)
    have ht1 : t = [c] :=
      tokens_isolated punctuation _ (goodSeq_replaced_lowered s) t
        (List.mem_filter.mp htF).1 c hct hcP
    rw [← ht1]
    exact htF

/-- Closed instance of `extract_words_tokenizer_spec`: tokenizing
`"great!"` yields `["great", "!"]` with the punctuation separated, and a
whitespace-only line yields no tokens. -/
theorem extract_words_tokenizer_spec_witness :
    extract_words "great!".toList = [['g', 'r', 'e', 'a', 't'], ['!']] ∧
    ['!'] ∈ extract_words "great!".toList ∧
    extract_words " ".toList = [] := by
  refine ⟨by decide, ?_, ?_⟩
  · exact (extract_words_tokenizer_spec "great!".toList).2.1 '!' (by decide)
      (by decide)
  · exact (extract_words_tokenizer_spec " ".toList).2.2 (by decide)

/-! ## Vectorizer lemmas -/

lemma fillRow_cons (wl : Dict) (row : List Int) (w : List Char)
    (ws : List (List Char)) :
    fillRow wl row (w :: ws) =
      (dictLookup wl w).bind fun j =>
        (setEntry row j 1).bind fun row2 => fillRow wl row2 ws := rfl

lemma setEntry_length (row : List Int) (j v : Int) (row2 : List Int)
    (h : setEntry row j v = some row2) : row2.length = row.length := by
  unfold setEntry at h
  split_ifs at h
  · injection h with h
    rw [← h, List.length_set]
  · injection h with h
    rw [← h, List.length_set]

lemma setEntry_mem (row : List Int) (j v : Int) (row2 : List Int)
    (h : setEntry row j v = some row2) :
    ∀ x ∈ row2, x ∈ row ∨ x = v := by
  unfold setEntry at h
  split_ifs at h
  · injection h with h
    intro x hx
    exact List.mem_or_eq_of_mem_set (h ▸ hx)
  · injection h with h
    intro x hx
    exact List.mem_or_eq_of_mem_set (h ▸ hx)

lemma setEntry_preserves_one (row : List Int) (j : Int) (row2 : List Int)
    (k : Nat) (h : setEntry row j 1 = some row2) (hk : row[k]? = some 1) :
    row2[k]? = some 1 := by
  unfold setEntry at h
  split_ifs at h
  · injection h with h
    subst h
    by_cases hm : j.toNat = k
    · subst hm
      rw [List.getElem?_set_self', hk]
      rfl
    · rw [List.getElem?_set_ne hm]
      exact hk
  · injection h with h
    subst h
    by_cases hm : (j + row.length).toNat = k
    · subst hm
      rw [List.getElem?_set_self', hk]
      rfl
    · rw [List.getElem?_set_ne hm]
      exact hk

lemma setEntry_sets_one (row : List Int) (j : Int) (row2 : List Int)
    (h : setEntry row j 1 = some row2) (hj0 : 0 ≤ j)
    (hjlt : j < (row.length : Int)) : row2[j.toNat]? = some 1 := by
  unfold setEntry at h
  rw [if_pos ⟨hj0, hjlt⟩] at h
  injection h with h
  subst h
  rw [List.getElem?_set_self (by omega)]

lemma fillRow_length (wl : Dict) :
    ∀ (ws : List (List Char)) (row r : List Int),
      fillRow wl row ws = some r → r.length = row.length
  | [], row, r, h => by
    obtain rfl := Option.some_inj.mp h
    rfl
  | w :: ws, row, r, h => by
    unfold fillRow at h
    cases hlk : dictLookup wl w with
    | none => rw [hlk] at h; simp at h
    | some j =>
      rw [hlk] at h
      simp only [Option.some_bind] at h
      cases hse : setEntry row j 1 with
      | none => rw [hse] at h; simp at h
      | some row2 =>
        rw [hse] at h
        simp only [Option.some_bind] at h
        rw [fillRow_length wl ws row2 r h]
        exact setEntry_length row j 1 row2 hse

lemma fillRow_entries01 (wl : Dict) :
    ∀ (ws : List (List Char)) (row r : List Int),
      (∀ x ∈ row, x = 0 ∨ x = 1) → fillRow wl row ws = some r →
      ∀ x ∈ r, x = 0 ∨ x = 1
  | [], row, r, h01, h => by
    obtain rfl := Option.some_inj.mp h
    exact h01
  | w :: ws, row, r, h01, h => by
    unfold fillRow at h
    cases hlk : dictLookup wl w with
    | none => rw [hlk] at h; simp at h
    | some j =>
      rw [hlk] at h
      simp only [Option.some_bind] at h
      cases hse : setEntry row j 1 with
      | none => rw [hse] at h; simp at h
      | some row2 =>
        rw [hse] at h
        simp only [Option.some_bind] at h
        refine fillRow_entries01 wl ws row2 r ?_ h
        intro x hx
        rcases setEntry_mem row j 1 row2 hse x hx with hmem | rfl
        · exact h01 x hmem
        · exact Or.inr rfl

lemma fillRow_append (wl : Dict) :
    ∀ (ws1 ws2 : List (List Char)) (row : List Int),
      fillRow wl row (ws1 ++ ws2) =
        (fillRow wl row ws1).bind fun r => fillRow wl r ws2
  | [], ws2, row => by simp [fillRow]
  | w :: ws1, ws2, row => by
    rw [List.cons_append, fillRow_cons, fillRow_cons]
    cases hlk : dictLookup wl w with
    | none => simp
    | some j =>
      simp only [Option.some_bind]
      cases hse : setEntry row j 1 with
      | none => simp
      | some row2 =>
        simp only [Option.some_bind]
        exact fillRow_append wl ws1 ws2 row2

lemma fillRow_preserves_entry_one (wl : Dict) :
    ∀ (ws : List (List Char)) (row r : List Int) (k : Nat),
      row[k]? = some 1 → fillRow wl row ws = some r → r[k]? = some 1
  | [], row, r, k, hk, h => by
    obtain rfl := Option.some_inj.mp h
    exact hk
  | w :: ws, row, r, k, hk, h => by
    unfold fillRow at h
    cases hlk : dictLookup wl w with
    | none => rw [hlk] at h; simp at h
    | some j =>
      rw [hlk] at h
      simp only [Option.some_bind] at h
      cases hse : setEntry row j 1 with
      | none => rw [hse] at h; simp at h
      | some row2 =>
        rw [hse] at h
        simp only [Option.some_bind] at h
        exact fillRow_preserves_entry_one wl ws row2 r k
          (setEntry_preserves_one row j row2 k hse hk) h

lemma fillRow_sets_one (wl : Dict) (ws : List (List Char)) (row r : List Int)
    (w : List Char) (j : Int) (hw : w ∈ ws) (hlk : dictLookup wl w = some j)
    (hj0 : 0 ≤ j) (hjlt : j < (row.length : Int))
    (h : fillRow wl row ws = some r) : r[j.toNat]? = some 1 := by
  obtain ⟨l1, l2, rfl⟩ := List.append_of_mem hw
  rw [fillRow_append] at h
  cases hf1 : fillRow wl row l1 with
  | none => rw [hf1] at h; simp at h
  | some r1 =>
    rw [hf1] at h
    simp only [Option.some_bind] at h
    unfold fillRow at h
    rw [hlk] at h
    simp only [Option.some_bind] at h
    cases hse : setEntry r1 j 1 with
    | none => rw [hse] at h; simp at h
    | some r2 =>
      rw [hse] at h
      simp only [Option.some_bind] at h
      have hr1len : r1.length = row.length := fillRow_length wl l1 row r1 hf1
      have h2 : r2[j.toNat]? = some 1 :=
        setEntry_sets_one r1 j r2 hse hj0 (by rw [hr1len]; exact hjlt)
      exact fillRow_preserves_entry_one wl l2 r2 r j.toNat h2 h

lemma fillRow_eq_none (wl : Dict) :
    ∀ (ws : List (List Char)) (row : List Int) (w : List Char),
      w ∈ ws → dictLookup wl w = none → fillRow wl row ws = none
  | w2 :: ws, row, w, hw, hlk => by
    unfold fillRow
    rcases List.mem_cons.mp hw with rfl | hw'
    · rw [hlk]
      rfl
    · cases hlk2 : dictLookup wl w2 with
      | none => rfl
      | some j =>
        simp only [Option.some_bind]
        cases hse : setEntry row j 1 with
        | none => rfl
        | some row2 =>
          simp only [Option.some_bind]
          exact fillRow_eq_none wl ws row2 w hw' hlk

lemma mapM_option_spec {α β : Type} (f : α → Option β) :
    ∀ (l : List α) (r : List β), l.mapM f = some r →
      r.length = l.length ∧
      ∀ (i : Nat) (a : α), l[i]? = some a →
        ∃ b, r[i]? = some b ∧ f a = some b := by
  intro l
  induction l with
  | nil =>
    intro r h
    simp only [List.mapM_nil] at h
    obtain rfl := Option.some_inj.mp h
    refine ⟨rfl, ?_⟩
    intro i a ha
    simp at ha
  | cons a l ih =>
    intro r h
    rw [List.mapM_cons] at h
    cases hfa : f a with
    | none => rw [hfa] at h; simp at h
    | some b =>
      rw [hfa] at h
      cases hml : l.mapM f with
      | none => rw [hml] at h; simp at h
      | some bs =>
        rw [hml] at h
        simp at h
        subst h
        obtain ⟨hlen, hptw⟩ := ih bs hml
        refine ⟨by simp [hlen], ?_⟩
        intro i x hx
        cases i with
        | zero =>
          simp only [List.getElem?_cons_zero, Option.some_inj] at hx
          exact ⟨b, by simp, hx ▸ hfa⟩
        | succ i =>
          simp only [List.getElem?_cons_succ] at hx ⊢
          exact hptw i x hx

lemma mapM_option_eq_none {α β : Type} (f : α → Option β) :
    ∀ (l : List α) (a : α), a ∈ l → f a = none → l.mapM f = none
  | a2 :: l, a, ha, hfa => by
    rw [List.mapM_cons]
    rcases List.mem_cons.mp ha with rfl | ha'
    · rw [hfa]
      rfl
    · cases hfa2 : f a2 with
      | none => rfl
      | some b =>
        rw [mapM_option_eq_none f l a ha' hfa]
        rfl

/-- C7: whenever `extract_feature_vectors` returns a matrix, it has one
row per corpus line; every row has length `len(word_list)` with entries in
`{0, 1}`; and a token occurring anywhere in a line whose assigned index is
an actual column (in `[0, d)`) has that column of the line's row set
to 1, however often the token repeats. -/
theorem extract_feature_vectors_rows (lines : List (List Char)) (wl : Dict)
    (M : List (List Int)) (hM : extract_feature_vectors lines wl = some M) :
    M.length = lines.length ∧
    (∀ row ∈ M, row.length = wl.length ∧ ∀ v ∈ row, v = 0 ∨ v = 1) ∧
    (∀ (i : Nat) (line : List Char) (row : List Int),
      lines[i]? = some line → M[i]? = some row →
      ∀ w ∈ extract_words line, ∀ j : Int, dictLookup wl w = some j →
        0 ≤ j → j < (wl.length : Int) → row[j.toNat]? = some 1) := by
  unfold extract_feature_vectors at hM
  obtain ⟨hlen, hptw⟩ := mapM_option_spec _ lines M hM
  refine ⟨hlen, ?_, ?_⟩
  · intro row hrow
    obtain ⟨i, hi⟩ := List.mem_iff_getElem?.mp hrow
    have hiM : i < lines.length := by
      rw [← hlen]
      by_contra hge
      rw [List.getElem?_eq_none (le_of_not_lt hge)] at hi
      exact Option.noConfusion hi
    have hline : lines[i]? = some lines[i] := List.getElem?_eq_getElem hiM
    obtain ⟨b, hb, hfill⟩ := hptw i lines[i] hline
    have hbrow : b = row := by
      rw [hb] at hi
      exact Option.some_inj.mp hi
    subst hbrow
    constructor
    · rw [fillRow_length wl _ _ b hfill, List.length_replicate]
    · refine fillRow_entries01 wl _ _ b ?_ hfill
      intro x hx
      exact Or.inl (List.eq_of_mem_replicate hx)
  · intro i line row hline hrow w hw j hlk hj0 hjlt
    obtain ⟨b, hb, hfill⟩ := hptw i line hline
    have hbrow : b = row := by
      rw [hb] at hrow
      exact Option.some_inj.mp hrow
    subst hbrow
    exact fillRow_sets_one wl (extract_words line) _ b w j hw hlk hj0
      (by rw [List.length_replicate]; exact hjlt) hfill

/-- Closed instance of `extract_feature_vectors_rows` on a one-line,
one-token corpus. -/
theorem extract_feature_vectors_rows_witness :
    ([[1]] : List (List Int)).length = ([['a']] : List (List Char)).length ∧
    (∀ row ∈ ([[1]] : List (List Int)),
      row.length = ([(['a'], 0)] : Dict).length ∧ ∀ v ∈ row, v = 0 ∨ v = 1) ∧
    (∀ (i : Nat) (line : List Char) (row : List Int),
      ([['a']] : List (List Char))[i]? = some line →
      ([[1]] : List (List Int))[i]? = some row →
      ∀ w ∈ extract_words line, ∀ j : Int,
        dictLookup ([(['a'], 0)] : Dict) w = some j →
        0 ≤ j → j < (([(['a'], 0)] : Dict).length : Int) →
        row[j.toNat]? = some 1) :=
  extract_feature_vectors_rows [['a']] [(['a'], 0)] [[1]] (by decide)

/-- C2 counterexample: on the one-line corpus `"b"` with a vocabulary
containing only `"a"`, the vectorizer hits a missing key and fails
(Python raises `KeyError`) instead of ignoring the token and returning
normally. -/
theorem extract_feature_vectors_unknown_token_counterexample :
    extract_feature_vectors [['b']] [(['a'], 0)] = none := by decide

/-- C2 amended: a token of any corpus line that is absent from
`word_list` makes `extract_feature_vectors` raise `KeyError` — the call
returns no matrix at all, rather than silently ignoring the token. -/
theorem extract_feature_vectors_raises_on_unknown_token
    (lines : List (List Char)) (wl : Dict) (line w : List Char)
    (hline : line ∈ lines) (hw : w ∈ extract_words line)
    (hlk : dictLookup wl w = none) :
    extract_feature_vectors lines wl = none := by
  unfold extract_feature_vectors
  exact mapM_option_eq_none _ lines line hline
    (fillRow_eq_none wl (extract_words line) _ w hw hlk)

/-- Closed instance of `extract_feature_vectors_raises_on_unknown_token`:
a corpus whose second line holds an out-of-vocabulary token. -/
theorem extract_feature_vectors_raises_on_unknown_token_witness :
    extract_feature_vectors [['a'], ['b']] [(['a'], 0)] = none :=
  extract_feature_vectors_raises_on_unknown_token [['a'], ['b']]
    [(['a'], 0)] ['b'] ['b'] (by decide) (by decide) (by decide)

lemma length_filter_lt {α : Type} (p : α → Bool) (l : List α) (x : α)
    (hx : x ∈ l) (hpx : p x = false) :
    (l.filter p).length < l.length := by
  induction l with
  | nil => exact absurd hx (List.not_mem_nil x)
  | cons a l ih =>
    rw [List.filter_cons]
    rcases List.mem_cons.mp hx with rfl | hx'
    · rw [if_neg (by simp [hpx])]
      exact Nat.lt_succ_of_le (List.length_filter_le p l)
    · cases hpa : p a with
      | true =>
        rw [if_pos (by simp [hpa]), List.length_cons, List.length_cons]
        exact Nat.succ_lt_succ (ih hx')
      | false =>
        rw [if_neg (by simp [hpa])]
        exact Nat.lt_succ_of_lt (ih hx')

/-- C10: the matrix returned by `extract_feature_vectors` has one row per
corpus line, blank lines included; a blank line yields the all-zero row;
and when the corpus contains a blank line, the matrix has strictly more
rows than `read_vector_file` (which skips blank lines) has entries. -/
theorem feature_matrix_counts_blank_lines (lines : List (List Char))
    (wl : Dict) (M : List (List Int))
    (hM : extract_feature_vectors lines wl = some M) :
    M.length = lines.length ∧
    (∀ (i : Nat) (line : List Char), lines[i]? = some line →
      isBlank line = true → M[i]? = some (List.replicate wl.length 0)) ∧
    ((∃ line ∈ lines, isBlank line = true) →
      (read_vector_file lines).length < M.length) := by
  unfold extract_feature_vectors at hM
  obtain ⟨hlen, hptw⟩ := mapM_option_spec _ lines M hM
  refine ⟨hlen, ?_, ?_⟩
  · intro i line hline hblank
    obtain ⟨b, hb, hfill⟩ := hptw i line hline
    rw [extract_words_blank line hblank] at hfill
    have hz : b = List.replicate wl.length 0 :=
      (Option.some_inj.mp hfill).symm
    rw [hb, hz]
  · rintro ⟨line, hline, hblank⟩
    rw [hlen]
    unfold read_vector_file
    exact length_filter_lt _ lines line hline (by simp [hblank])

/-- Closed instance of `feature_matrix_counts_blank_lines` on a corpus
with one non-blank and one blank line. -/
theorem feature_matrix_counts_blank_lines_witness :
    ([[1], [0]] : List (List Int)).length =
      ([['a'], []] : List (List Char)).length ∧
    (∀ (i : Nat) (line : List Char),
      ([['a'], []] : List (List Char))[i]? = some line →
      isBlank line = true →
      ([[1], [0]] : List (List Int))[i]? =
        some (List.replicate ([(['a'], 0)] : Dict).length 0)) ∧
    ((∃ line ∈ ([['a'], []] : List (List Char)), isBlank line = true) →
      (read_vector_file [['a'], []]).length <
        ([[1], [0]] : List (List Int)).length) :=
  feature_matrix_counts_blank_lines [['a'], []] [(['a'], 0)] [[1], [0]]
    (by decide)

end Twitter
